/-
Verification of the qblox_esr sequence compiler and Q1ASM emulator.

The Lean definitions below are shallow embeddings of the Python sources:
  - qblox_esr/simple_convert.py   (macro assembler, unit converters)
  - qblox_esr/qblox_esr.py        (sequence transform pipeline)
  - qblox_esr/qblox_emulator.py   (Q1ASM emulator)

Machine integers are modelled as Nat/Int (Python ints are unbounded).
Python float arithmetic on phases/waveform samples is modelled exactly over
the rationals; `np.round` is round-half-to-even, embedded as
`roundHalfEven`.  Python `%` on rationals with a positive divisor is
`pymod`.
-/
import Mathlib

namespace QbloxEsr

/-- Python float `%` with positive divisor: `a - b * floor (a / b)`. -/
def pymod (a b : ℚ) : ℚ := a - b * ⌊a / b⌋

/-- `np.round` to the nearest integer, ties to even. -/
def roundHalfEven (x : ℚ) : ℤ :=
  let f := ⌊x⌋
  if x - f < 1/2 then f
  else if 1/2 < x - f then f + 1
  else if Even f then f else f + 1

/-- `simple_convert.q1asm_ph` (degree branch, `deg=True`): wrap the phase
with `phase % 360`, scale by the literal `2777777.777778` and round with
`np.round`.  (The `deg=False` branch multiplies by `180/pi` first and is
outside every claim.) -/
def q1asm_ph (phase : ℚ) : ℤ :=
  roundHalfEven (pymod phase 360 * (2777777777778 / 1000000))

/-- The Q1ASM lines that `qblox_esr.q1asm_delay` can emit. -/
inductive Q1Line where
  | wait (n : ℕ)
  | move (n : ℕ) (reg : String)
  | label (name : String)
  | loop (reg : String) (target : String)
deriving DecidableEq, Repr

/-- `qblox_esr.q1asm_delay`: expansion of a requested delay into `wait`
instructions, with a counted loop once at least 5 maximal `wait 65535`
instructions are needed.  Returns the emitted lines and the `loop_used`
flag. -/
def q1asm_delay (delay : ℕ) (loop_index : ℕ) : List Q1Line × Bool :=
  if delay < 65535 then
    ([Q1Line.wait delay], false)
  else
    let remainder := delay % 65535
    let loop_nb :=
      delay / 65535 - (if 0 < remainder ∧ remainder < 4 then 1 else 0)
    let head : List Q1Line × Bool :=
      if loop_nb < 5 then
        (List.replicate loop_nb (Q1Line.wait 65535), false)
      else
        ([Q1Line.move loop_nb "R1",
          Q1Line.label ("loop_delay" ++ toString loop_index),
          Q1Line.wait 65535,
          Q1Line.loop "R1" ("@loop_delay" ++ toString loop_index)], true)
    let tail : List Q1Line :=
      if 0 < remainder then
        if 0 < remainder ∧ remainder < 4 then
          [Q1Line.wait (65535 - 4), Q1Line.wait (remainder + 4)]
        else
          [Q1Line.wait remainder]
      else []
    (head.1 ++ tail, head.2)

/-- Total duration of an emitted delay block: a plain `wait n` contributes
`n`; an emitted counted loop `move k,R1 / label / wait n / loop R1,@label`
contributes one `wait n` per iteration, i.e. `k * n`. -/
def delayLinesSum : List Q1Line → ℕ
  | [] => 0
  | Q1Line.move k _ :: Q1Line.label _ :: Q1Line.wait n :: Q1Line.loop _ _ :: rest =>
      k * n + delayLinesSum rest
  | Q1Line.wait n :: rest => n + delayLinesSum rest
  | _ :: rest => delayLinesSum rest

lemma delayLinesSum_replicate_wait (n m : ℕ) (l : List Q1Line) :
    delayLinesSum (List.replicate n (Q1Line.wait m) ++ l) =
      n * m + delayLinesSum l := by
  induction n with
  | zero => simp [delayLinesSum]
  | succ k ih =>
      rw [List.replicate_succ, List.cons_append]
      rw [show delayLinesSum (Q1Line.wait m ::
            (List.replicate k (Q1Line.wait m) ++ l)) =
            m + delayLinesSum (List.replicate k (Q1Line.wait m) ++ l) from ?_]
      · rw [ih]; ring
      · cases k with
        | zero => cases l with
          | nil => simp [delayLinesSum]
          | cons a t => cases a <;> simp [delayLinesSum]
        | succ j => simp [delayLinesSum]

lemma pymod_add_self (p : ℚ) : pymod (p + 360) 360 = pymod p 360 := by
  unfold pymod
  have h : (p + 360) / 360 = p / 360 + 1 := by ring
  rw [h, Int.floor_add_one]
  push_cast
  ring

/-- C1: the long-delay expansion `q1asm_delay` round-trips the requested
delay: summing the emitted `wait` durations, with each iteration of an
emitted counted loop contributing one 65535-unit wait, yields exactly the
requested delay — for every requested delay and loop index (covering a
single wait below 65535, the loop case such as `65535*17+1`, and the
topped-up case where the remainder modulo 65535 lies strictly between 0
and 4). -/
lemma delayLinesSum_replicate_wait_nil (n m : ℕ) :
    delayLinesSum (List.replicate n (Q1Line.wait m)) = n * m := by
  have h := delayLinesSum_replicate_wait n m []
  simpa [delayLinesSum] using h

theorem C1_q1asm_delay_total_duration (delay loop_index : ℕ) :
    delayLinesSum (q1asm_delay delay loop_index).1 = delay := by
  unfold q1asm_delay
  dsimp only
  split_ifs with h1 h2 h3 h4 h5 h6 h7 h8 <;>
    simp_all [delayLinesSum, delayLinesSum_replicate_wait,
      delayLinesSum_replicate_wait_nil] <;>
    omega

/-- C9: the phase converter `q1asm_ph` wraps its argument to [0,360)
degrees before scaling, so it is 360-periodic; and the pinned values
`q1asm_ph 90 = 250000000`, `q1asm_ph (-90) = 750000000` hold. -/
theorem C9_q1asm_ph_wraparound :
    (∀ p : ℚ, q1asm_ph (p + 360) = q1asm_ph p) ∧
      q1asm_ph 90 = 250000000 ∧ q1asm_ph (-90) = 750000000 := by
  refine ⟨fun p => ?_, ?_, ?_⟩
  · unfold q1asm_ph
    rw [pymod_add_self]
  · unfold q1asm_ph pymod roundHalfEven
    norm_num
  · unfold q1asm_ph pymod roundHalfEven
    norm_num

/-! ## Macro assembler: `simple_convert.operator2q1asm`, `*` branch

The regex `^\s*(\w+)\s*=\s*(\w+)\s*([+\-*/])\s*(\w+)\s*$` splits an
arithmetic line into `dest`, `op1`, operator and `op2`; an operand whose
first character is `R` is a register, otherwise an integer immediate
(`int(...)` parses it).  Loop labels are emitted as the text
`loop_mult{mult_loop_index}`; the embedding stores such a label as its
fixed base string paired with the numeric index. -/

/-- A parsed operand of a simplified arithmetic line. -/
inductive SOperand where
  | reg (name : String)
  | imm (n : ℕ)
deriving DecidableEq, Repr

/-- Q1ASM lines emitted by the multiplication lowering. -/
inductive MInstr where
  | move (a b : String)
  | add (a b c : String)
  | nop
  | label (base : String) (idx : ℕ)
  | loop (reg : String) (base : String) (idx : ℕ)
deriving DecidableEq, Repr

/-- Body of `operator2q1asm` for `dest = reg * count` once operand roles
are known (source lines 397-425): reject `reg = dest`, set
`count = int(count) - 1`, reject the now-negative case, unroll while
`count < 5`, otherwise emit a counted loop labelled
`loop_mult{mult_loop_index}` and advance the loop index. -/
def operator2q1asm_mult_core (dest reg : String) (count : ℕ)
    (mult_loop_index : ℕ) : Except String (List MInstr × ℕ) :=
  if reg = dest then
    Except.error "Multiplication on the same variable (registers) not supported"
  else if count = 0 then
    Except.error "Negative constants for multiplication not supported."
  else
    let c := count - 1
    if c < 5 then
      Except.ok
        (MInstr.move dest reg :: List.replicate c (MInstr.add dest reg dest),
          mult_loop_index)
    else
      Except.ok
        ([MInstr.move dest reg,
          MInstr.move "R1" (toString c),
          MInstr.label "loop_mult" mult_loop_index,
          MInstr.add dest reg dest,
          MInstr.nop,
          MInstr.loop "R1" "loop_mult" mult_loop_index],
          mult_loop_index + 1)

/-- `operator2q1asm`, `*` branch (source lines 369-425): classify the two
operands, reject immediate*immediate and register*register, then lower
`dest = reg * count`. -/
def operator2q1asm_mult (dest : String) (op1 op2 : SOperand)
    (mult_loop_index : ℕ) : Except String (List MInstr × ℕ) :=
  match op1, op2 with
  | SOperand.imm _, SOperand.imm _ =>
      Except.error "Multiplication between constants (immediate values) not supported"
  | SOperand.reg _, SOperand.reg _ =>
      Except.error "Multiplication between 2 variables (registers) not supported"
  | SOperand.reg r, SOperand.imm n =>
      operator2q1asm_mult_core dest r n mult_loop_index
  | SOperand.imm n, SOperand.reg r =>
      operator2q1asm_mult_core dest r n mult_loop_index

/-- `simple_convert_q1asm`, restricted to its multiplication lines: the
running `mult_loop_index` (initially 0) is threaded through the
successive calls of `operator2q1asm` (source lines 496-529). -/
def simple_convert_mults (lines : List (String × SOperand × SOperand))
    (mult_loop_index : ℕ) : Except String (List MInstr × ℕ) :=
  match lines with
  | [] => Except.ok ([], mult_loop_index)
  | (d, a, b) :: rest =>
      match operator2q1asm_mult d a b mult_loop_index with
      | Except.error e => Except.error e
      | Except.ok (block, idx) =>
          match simple_convert_mults rest idx with
          | Except.error e => Except.error e
          | Except.ok (out, idx') => Except.ok (block ++ out, idx')

/-- Indices of the `loop_mult` labels occurring in a lowered block. -/
def multLabels : List MInstr → List ℕ
  | [] => []
  | MInstr.label _ i :: rest => i :: multLabels rest
  | _ :: rest => multLabels rest

/-- Whether a lowered block contains a counted loop instruction. -/
def containsLoop (l : List MInstr) : Bool :=
  l.any fun i => match i with
    | MInstr.loop _ _ _ => true
    | _ => false

lemma multLabels_replicate_add (c : ℕ) (a b d : String) :
    multLabels (List.replicate c (MInstr.add a b d)) = [] := by
  induction c with
  | zero => simp [multLabels]
  | succ k ih => simpa [List.replicate_succ, multLabels] using ih

lemma multLabels_append (l1 l2 : List MInstr) :
    multLabels (l1 ++ l2) = multLabels l1 ++ multLabels l2 := by
  induction l1 with
  | nil => simp [multLabels]
  | cons a t ih => cases a <;> simp [multLabels, ih]

lemma operator2q1asm_mult_core_labels (dest reg : String) (n idx : ℕ)
    (block : List MInstr) (idx' : ℕ)
    (h : operator2q1asm_mult_core dest reg n idx = Except.ok (block, idx')) :
    (multLabels block = [] ∧ idx' = idx) ∨
      (multLabels block = [idx] ∧ idx' = idx + 1) := by
  unfold operator2q1asm_mult_core at h
  split_ifs at h with h1 h2
  dsimp only at h
  split_ifs at h with h3
  · simp only [Except.ok.injEq, Prod.mk.injEq] at h
    obtain ⟨hb, hi⟩ := h
    subst hb
    exact Or.inl ⟨by simp [multLabels, multLabels_replicate_add], hi.symm⟩
  · simp only [Except.ok.injEq, Prod.mk.injEq] at h
    obtain ⟨hb, hi⟩ := h
    subst hb
    exact Or.inr ⟨by simp [multLabels], hi.symm⟩

lemma operator2q1asm_mult_labels (dest : String) (a b : SOperand)
    (idx : ℕ) (block : List MInstr) (idx' : ℕ)
    (h : operator2q1asm_mult dest a b idx = Except.ok (block, idx')) :
    (multLabels block = [] ∧ idx' = idx) ∨
      (multLabels block = [idx] ∧ idx' = idx + 1) := by
  cases a with
  | reg r =>
      cases b with
      | reg s => simp [operator2q1asm_mult] at h
      | imm n => exact operator2q1asm_mult_core_labels dest r n idx block idx' h
  | imm n =>
      cases b with
      | reg s => exact operator2q1asm_mult_core_labels dest s n idx block idx' h
      | imm m => simp [operator2q1asm_mult] at h

lemma simple_convert_mults_labels
    (lines : List (String × SOperand × SOperand)) (idx : ℕ)
    (out : List MInstr) (idx' : ℕ)
    (h : simple_convert_mults lines idx = Except.ok (out, idx')) :
    idx ≤ idx' ∧ (∀ j ∈ multLabels out, idx ≤ j ∧ j < idx') ∧
      (multLabels out).Nodup := by
  induction lines generalizing idx out idx' with
  | nil =>
      simp only [simple_convert_mults, Except.ok.injEq, Prod.mk.injEq] at h
      obtain ⟨h1, h2⟩ := h
      subst h1 h2
      simp [multLabels]
  | cons l rest ih =>
      obtain ⟨d, a, b⟩ := l
      simp only [simple_convert_mults] at h
      cases hop : operator2q1asm_mult d a b idx with
      | error e => rw [hop] at h; exact absurd h (by simp)
      | ok p =>
          obtain ⟨block, idx1⟩ := p
          rw [hop] at h
          dsimp only at h
          cases hrec : simple_convert_mults rest idx1 with
          | error e => rw [hrec] at h; exact absurd h (by simp)
          | ok q =>
              obtain ⟨out2, idx2⟩ := q
              rw [hrec] at h
              dsimp only at h
              simp only [Except.ok.injEq, Prod.mk.injEq] at h
              obtain ⟨hout, hidx⟩ := h
              subst hout hidx
              obtain ⟨hle, hmem, hnd⟩ := ih idx1 out2 idx2 hrec
              rcases operator2q1asm_mult_labels d a b idx block idx1 hop with
                ⟨hbl, hi⟩ | ⟨hbl, hi⟩
              · subst hi
                refine ⟨hle, ?_, ?_⟩
                · intro j hj
                  rw [multLabels_append, hbl, List.nil_append] at hj
                  exact hmem j hj
                · rw [multLabels_append, hbl, List.nil_append]
                  exact hnd
              · subst hi
                have hstep : idx ≤ idx + 1 := Nat.le_succ idx
                refine ⟨le_trans hstep hle, ?_, ?_⟩
                · intro j hj
                  rw [multLabels_append, hbl] at hj
                  rcases List.mem_append.1 hj with hj1 | hj2
                  · rcases List.mem_singleton.1 hj1 with rfl
                    exact ⟨le_refl _, lt_of_lt_of_le (Nat.lt_succ_self _) hle⟩
                  · obtain ⟨hj2a, hj2b⟩ := hmem j hj2
                    exact ⟨le_trans hstep hj2a, hj2b⟩
                · rw [multLabels_append, hbl]
                  refine List.Nodup.append (List.nodup_singleton _) hnd ?_
                  intro j hj1 hj2
                  rcases List.mem_singleton.1 hj1 with rfl
                  obtain ⟨hja, _⟩ := hmem j hj2
                  omega

/-- C2 counterexample: the claim says a count of 5 or more lowers to a
counted loop using the immediate as the iteration count.  At count 5 the
code unrolls (no loop at all), and at count 6 the emitted loop iterates
5 times, not 6. -/
theorem C2_counterexample :
    operator2q1asm_mult "R11" (SOperand.reg "R2") (SOperand.imm 5) 0 =
      Except.ok ([MInstr.move "R11" "R2", MInstr.add "R11" "R2" "R11",
        MInstr.add "R11" "R2" "R11", MInstr.add "R11" "R2" "R11",
        MInstr.add "R11" "R2" "R11"], 0) ∧
    containsLoop [MInstr.move "R11" "R2", MInstr.add "R11" "R2" "R11",
        MInstr.add "R11" "R2" "R11", MInstr.add "R11" "R2" "R11",
        MInstr.add "R11" "R2" "R11"] = false ∧
    operator2q1asm_mult "R11" (SOperand.reg "R2") (SOperand.imm 6) 0 =
      Except.ok ([MInstr.move "R11" "R2", MInstr.move "R1" "5",
        MInstr.label "loop_mult" 0, MInstr.add "R11" "R2" "R11",
        MInstr.nop, MInstr.loop "R1" "loop_mult" 0], 1) := by
  refine ⟨?_, by decide, ?_⟩ <;> rfl

/-- C2 (amended): in the lowering of `dest = reg * count` with
`reg ≠ dest`, a count with `1 ≤ count < 6` unrolls into an initial
register copy followed by `count - 1` add instructions; a count `≥ 6`
lowers to a counted `loop_mult{idx}` loop whose iteration count is
`count - 1`; and successive multiplication lowerings in one program
generate pairwise distinct loop labels. -/
theorem C2_mult_lowering (dest reg : String) (n idx : ℕ)
    (hreg : reg ≠ dest) :
    (0 < n → n < 6 →
      operator2q1asm_mult dest (SOperand.reg reg) (SOperand.imm n) idx =
        Except.ok (MInstr.move dest reg ::
          List.replicate (n - 1) (MInstr.add dest reg dest), idx)) ∧
    (6 ≤ n →
      operator2q1asm_mult dest (SOperand.reg reg) (SOperand.imm n) idx =
        Except.ok ([MInstr.move dest reg,
          MInstr.move "R1" (toString (n - 1)),
          MInstr.label "loop_mult" idx,
          MInstr.add dest reg dest,
          MInstr.nop,
          MInstr.loop "R1" "loop_mult" idx], idx + 1)) ∧
    (∀ lines out idx',
      simple_convert_mults lines idx = Except.ok (out, idx') →
      (multLabels out).Nodup) := by
  refine ⟨?_, ?_, ?_⟩
  · intro h1 h2
    simp only [operator2q1asm_mult, operator2q1asm_mult_core,
      if_neg hreg]
    rw [if_neg (by omega : ¬ n = 0), if_pos (by omega : n - 1 < 5)]
  · intro h1
    simp only [operator2q1asm_mult, operator2q1asm_mult_core,
      if_neg hreg]
    rw [if_neg (by omega : ¬ n = 0), if_neg (by omega : ¬ n - 1 < 5)]
  · intro lines out idx' h
    exact (simple_convert_mults_labels lines idx out idx' h).2.2

/-- Witness for C2: concrete instances of the three conjuncts. -/
theorem C2_mult_lowering_witness :
    operator2q1asm_mult "R11" (SOperand.reg "R2") (SOperand.imm 3) 0 =
      Except.ok ([MInstr.move "R11" "R2", MInstr.add "R11" "R2" "R11",
        MInstr.add "R11" "R2" "R11"], 0) ∧
    operator2q1asm_mult "R11" (SOperand.reg "R2") (SOperand.imm 7) 4 =
      Except.ok ([MInstr.move "R11" "R2", MInstr.move "R1" (toString 6),
        MInstr.label "loop_mult" 4, MInstr.add "R11" "R2" "R11",
        MInstr.nop, MInstr.loop "R1" "loop_mult" 4], 5) ∧
    (multLabels [MInstr.move "R11" "R2", MInstr.move "R1" "6",
      MInstr.label "loop_mult" 0, MInstr.add "R11" "R2" "R11",
      MInstr.nop, MInstr.loop "R1" "loop_mult" 0,
      MInstr.move "R12" "R2", MInstr.move "R1" "7",
      MInstr.label "loop_mult" 1, MInstr.add "R12" "R2" "R12",
      MInstr.nop, MInstr.loop "R1" "loop_mult" 1]).Nodup := by
  refine ⟨?_, ?_, ?_⟩
  · have h := (C2_mult_lowering "R11" "R2" 3 0 (by decide)).1
      (by decide) (by decide)
    simpa using h
  · exact (C2_mult_lowering "R11" "R2" 7 4 (by decide)).2.1 (by decide)
  · exact (C2_mult_lowering "R11" "R2" 7 0 (by decide)).2.2
      [("R11", SOperand.reg "R2", SOperand.imm 7),
       ("R12", SOperand.reg "R2", SOperand.imm 8)] _ 2 (by rfl)

/-! ## Q1ASM emulator (`qblox_emulator.Q1ASMEmulator`)

The emulator's register file is a Python dict preinitialized with
`R0`..`R63` mapping to 0; reads use `.get(reg, 0)` (or direct indexing on
an initialised register).  It is modelled as a total map `String → ℤ`
defaulting to 0.  Python ints are unbounded, hence `ℤ`.

`convert_gain` computes `10 ** (gain_db / 20)` in floating point; no claim
depends on the produced sample values, so the whole emulator is
parameterized by an arbitrary gain-conversion function `cg : ℤ → ℚ`.
`set_ph` stores `np.deg2rad(n * 360 / 1e9)`, an injective function of the
raw integer argument `n`; the embedding stores `n` itself (no claim reads
the phase value).  The `bins` buffers are initialised but never written
during `run` (the accumulation lines are commented out in the source), so
only `num_bins` is carried. -/

/-- Operand of an emulator instruction: the line either carries a parsed
integer (`numbers` nonempty) or a register name. -/
inductive EOperand where
  | imm (n : ℤ)
  | reg (name : String)
deriving DecidableEq, Repr

/-- Operand pair of `set_awg_gain` / `set_awg_offs`: two immediates, or
two register names (`if numbers: ... else: ...`). -/
inductive EOperandPair where
  | imms (x y : ℤ)
  | regs (r1 r2 : String)
deriving DecidableEq, Repr

/-- The opcodes dispatched by `Q1ASMEmulator.run` (source lines 160-325).
`unknown` is any unrecognized opcode (final `else: pc += 1`). -/
inductive EInstr where
  | asl (r1 : String) (n : ℤ) (r3 : String)
  | asr (r1 : String) (n : ℤ) (r3 : String)
  | move (n : ℤ) (dst : String)
  | add (r1 : String) (b : EOperand) (dst : String)
  | sub (r1 : String) (b : EOperand) (dst : String)
  | jmp (target : String)
  | jge (r : String) (n : ℤ) (target : String)
  | jlt (r : String) (n : ℤ) (target : String)
  | loop (r : String) (target : String)
  | play (i1 i2 : ℕ) (dur : ℤ)
  | set_mrk (v : EOperand)
  | wait (v : EOperand)
  | upd_param (n : ℤ)
  | acquire (idx : ℕ) (bin : EOperand) (dur : ℤ)
  | reset_ph
  | set_ph (v : EOperand)
  | set_awg_gain (p : EOperandPair)
  | set_awg_offs (p : EOperandPair)
  | illegal
  | nop
  | stop
  | unknown
deriving DecidableEq, Repr

/-- A source line: a label definition (`name:` on a line of its own), an
instruction, or a blank/comment-only line. -/
inductive PLine where
  | label (name : String)
  | instr (i : EInstr)
  | blank
deriving DecidableEq, Repr

/-- A waveform table entry: `{"data": [...], "index": n}`. -/
structure WfEntry where
  data : List ℚ
  index : ℕ
deriving DecidableEq, Repr

/-- An acquisition declaration: `{"num_bins": n, "index": i}`. -/
structure AcqDecl where
  num_bins : ℕ
  index : ℕ
deriving DecidableEq, Repr

/-- An acquisition channel at run time, with its growing scope buffers. -/
structure AcqChannel where
  num_bins : ℕ
  index : ℕ
  scope0 : List ℚ
  scope1 : List ℚ
deriving DecidableEq, Repr

/-- The sequence record handed to `Q1ASMEmulator.__init__`. -/
structure Sequence where
  program : List PLine
  waveforms : List (String × WfEntry)
  acquisitions : List (String × AcqDecl)

/-- Python dict lookup over an insertion-ordered association list: a later
binding of the same key overrides an earlier one. -/
def dictLookup {κ α : Type} [DecidableEq κ] (ls : List (κ × α)) (k : κ) :
    Option α :=
  ls.foldl (fun acc p => if p.1 = k then some p.2 else acc) none

/-- Functional update of the register file. -/
def updateReg (f : String → ℤ) (k : String) (v : ℤ) : String → ℤ :=
  fun x => if x = k then v else f x

/-- Emulator state (the mutable fields of `Q1ASMEmulator`). -/
structure EmuState where
  registers : String → ℤ
  awg_gain_I : ℤ
  awg_gain_Q : ℤ
  nco_phase : ℤ
  nco_phase_stream : List ℤ
  awg_offset_I : ℤ
  awg_offset_Q : ℤ
  timing : ℕ
  acquire : Bool
  acquisitions : List (String × AcqChannel)
  acquisition_channel : Option String
  acquisition_bin : Option ℤ
  waveforms : List (String × WfEntry)
  markers : List (ℕ × ℤ)
  marker_state : ℤ
  I : List ℚ
  Q : List ℚ
  current_i_waveform : Option (List ℚ)
  current_q_waveform : Option (List ℚ)
  current_i_start_time : ℕ
  current_q_start_time : ℕ

/-- `get_waveform_value`: the sample at a relative index, 0 outside any
active waveform or outside its bounds. -/
def getWaveformValue (wf : Option (List ℚ)) (idx : ℤ) : ℚ :=
  match wf with
  | none => 0
  | some l => if 0 ≤ idx then l.getD idx.toNat 0 else 0

/-- Append one sample pair to the active acquisition channel's scope
buffers (no-op when no channel is active; unreachable while
`acquire = true`). -/
def appendScope (acqs : List (String × AcqChannel)) (ch : Option String)
    (iv qv : ℚ) : List (String × AcqChannel) :=
  match ch with
  | none => acqs
  | some name =>
      acqs.map fun p =>
        if p.1 = name then
          (p.1, { p.2 with scope0 := p.2.scope0 ++ [iv],
                           scope1 := p.2.scope1 ++ [qv] })
        else p

/-- One iteration of the `advance_time` loop body: compute the I/Q sample
from the current waveforms, gains and offsets, append it to the output
traces (and, while acquiring, to the scope buffers), record the NCO phase
and advance the simulated-time counter by one. -/
def advanceStep (cg : ℤ → ℚ) (s : EmuState) : EmuState :=
  let i_idx : ℤ := (s.timing : ℤ) - (s.current_i_start_time : ℤ)
  let q_idx : ℤ := (s.timing : ℤ) - (s.current_q_start_time : ℤ)
  let i_val := cg s.awg_gain_I * getWaveformValue s.current_i_waveform i_idx
      + (s.awg_offset_I : ℚ)
  let q_val := cg s.awg_gain_Q * getWaveformValue s.current_q_waveform q_idx
      + (s.awg_offset_Q : ℚ)
  let s1 :=
    if s.acquire then
      { s with I := s.I ++ [i_val], Q := s.Q ++ [q_val],
               acquisitions :=
                 appendScope s.acquisitions s.acquisition_channel i_val q_val }
    else
      { s with I := s.I ++ [i_val], Q := s.Q ++ [q_val] }
  { s1 with nco_phase_stream := s1.nco_phase_stream ++ [s1.nco_phase],
            timing := s1.timing + 1 }

/-- `advance_time(duration)`: iterate `advanceStep`.  A negative Python
duration gives an empty `range`, modelled by the caller's `Int.toNat`. -/
def advanceTime (cg : ℤ → ℚ) : ℕ → EmuState → EmuState
  | 0, s => s
  | Nat.succ k, s => advanceTime cg k (advanceStep cg s)

/-- Result of executing one instruction. -/
inductive StepResult where
  | next (pc : ℕ) (s : EmuState)
  | halt (s : EmuState)
  | fault (msg : String)

/-- Resolve an operand: the parsed number if present, else a register
read. -/
def operandValue (s : EmuState) : EOperand → ℤ
  | EOperand.imm n => n
  | EOperand.reg r => s.registers r

/-- `{info["index"]: name}` dictionaries built in `__init__`. -/
def indexToNameW (wfs : List (String × WfEntry)) : List (ℕ × String) :=
  wfs.map fun p => (p.2.index, p.1)

def indexToNameA (acqs : List (String × AcqChannel)) : List (ℕ × String) :=
  acqs.map fun p => (p.2.index, p.1)

/-- Dispatch of one instruction, mirroring `Q1ASMEmulator.run`'s
`if`/`elif` chain (source lines 160-325).  Notable source quirks kept:

* `asl`/`asr` are separate `if` statements whose bodies already do
  `pc += 1`; control then falls through the `if move ... elif ... else`
  chain to its final `else: pc += 1`, so they advance the counter by two.
* `move` alone checks the 32-bit bound (`numbers[0] > 2**32 - 1`); `add`,
  `sub`, `asl` write unchecked values.
* `jge` compares the register against 0 (not its operand) and looks up
  the label table with the *immediate's text* `parts[2]` (a `KeyError`,
  i.e. a fault, whenever the register is ≥ 0 and no label is literally
  that numeral); `jlt` compares against `numbers[0]` and strips the `@`
  of `parts[3]`.
* `set_mrk`'s range guard is `> 15 and < 0`, which never holds, so no
  marker value is ever rejected. -/
def execInstr (cg : ℤ → ℚ) (labels : List (String × ℕ)) (i : EInstr)
    (pc : ℕ) (s : EmuState) : StepResult :=
  match i with
  | EInstr.asl r1 n r3 =>
      StepResult.next (pc + 2)
        { s with registers :=
            updateReg s.registers r3 (s.registers r1 * 2 ^ n.toNat) }
  | EInstr.asr r1 n r3 =>
      StepResult.next (pc + 2)
        { s with registers :=
            updateReg s.registers r3 (Int.fdiv (s.registers r1) (2 ^ n.toNat)) }
  | EInstr.move n dst =>
      if n > 2 ^ 32 - 1 then
        StepResult.fault "Registars can only store 32 bit integers"
      else
        StepResult.next (pc + 1)
          { s with registers := updateReg s.registers dst n }
  | EInstr.add r1 b dst =>
      StepResult.next (pc + 1)
        { s with registers :=
            updateReg s.registers dst (s.registers r1 + operandValue s b) }
  | EInstr.sub r1 b dst =>
      StepResult.next (pc + 1)
        { s with registers :=
            updateReg s.registers dst (s.registers r1 - operandValue s b) }
  | EInstr.jmp target =>
      match dictLookup labels target with
      | some t => StepResult.next t s
      | none => StepResult.fault "undefined label"
  | EInstr.jge r n _ =>
      if s.registers r ≥ 0 then
        match dictLookup labels (toString n) with
        | some t => StepResult.next t s
        | none => StepResult.fault "undefined label"
      else StepResult.next (pc + 1) s
  | EInstr.jlt r n target =>
      if s.registers r < n then
        match dictLookup labels (target.drop 1) with
        | some t => StepResult.next t s
        | none => StepResult.fault "undefined label"
      else StepResult.next (pc + 1) s
  | EInstr.loop r target =>
      let v := s.registers r - 1
      let s1 := { s with registers := updateReg s.registers r v }
      if v > 0 then
        match dictLookup labels (target.drop 1) with
        | some t => StepResult.next t s1
        | none => StepResult.fault "undefined label"
      else StepResult.next (pc + 1) s1
  | EInstr.play i1 i2 dur =>
      match dictLookup (indexToNameW s.waveforms) i1,
            dictLookup (indexToNameW s.waveforms) i2 with
      | some n1, some n2 =>
          match dictLookup s.waveforms n1, dictLookup s.waveforms n2 with
          | some w1, some w2 =>
              let s1 := { s with
                markers := s.markers ++ [(s.timing, s.marker_state)],
                current_i_waveform := some w1.data,
                current_q_waveform := some w2.data,
                current_i_start_time := s.timing,
                current_q_start_time := s.timing }
              StepResult.next (pc + 1) (advanceTime cg dur.toNat s1)
          | _, _ => StepResult.fault "unknown waveform name"
      | _, _ => StepResult.fault "unknown waveform index"
  | EInstr.set_mrk v =>
      let m := operandValue s v
      if m > 15 ∧ m < 0 then
        StepResult.fault "Marker state has to be a valid 4 bit binary number"
      else
        StepResult.next (pc + 1) { s with marker_state := m }
  | EInstr.wait v =>
      StepResult.next (pc + 1) (advanceTime cg (operandValue s v).toNat s)
  | EInstr.upd_param n =>
      let s1 := { s with markers := s.markers ++ [(s.timing, s.marker_state)] }
      StepResult.next (pc + 1) (advanceTime cg n.toNat s1)
  | EInstr.acquire idx bin dur =>
      let s1 := { s with
        markers := s.markers ++ [(s.timing, s.marker_state)],
        acquire := true }
      match dictLookup (indexToNameA s1.acquisitions) idx with
      | none => StepResult.fault "unknown acquisition index"
      | some name =>
          let s2 := { s1 with acquisition_channel := some name,
                              acquisition_bin := some (operandValue s1 bin) }
          StepResult.next (pc + 1) (advanceTime cg dur.toNat s2)
  | EInstr.reset_ph =>
      StepResult.next (pc + 1) { s with nco_phase := 0 }
  | EInstr.set_ph v =>
      StepResult.next (pc + 1) { s with nco_phase := operandValue s v }
  | EInstr.set_awg_gain p =>
      match p with
      | EOperandPair.imms x y =>
          StepResult.next (pc + 1) { s with awg_gain_I := x, awg_gain_Q := y }
      | EOperandPair.regs r1 r2 =>
          StepResult.next (pc + 1)
            { s with awg_gain_I := s.registers r1,
                     awg_gain_Q := s.registers r2 }
  | EInstr.set_awg_offs p =>
      match p with
      | EOperandPair.imms x y =>
          StepResult.next (pc + 1)
            { s with awg_offset_I := x, awg_offset_Q := y }
      | EOperandPair.regs r1 r2 =>
          StepResult.next (pc + 1)
            { s with awg_offset_I := s.registers r1,
                     awg_offset_Q := s.registers r2 }
  | EInstr.illegal => StepResult.fault "Some sort of flags are meant to be raised"
  | EInstr.nop => StepResult.next (pc + 1) s
  | EInstr.stop =>
      StepResult.halt
        { s with markers := s.markers ++ [(s.timing, s.marker_state)] }
  | EInstr.unknown => StepResult.next (pc + 1) s

/-- Label pre-pass: any line consisting of `name:` defines `name` at its
own line index; a later duplicate overrides an earlier one (Python dict
assignment). -/
def buildLabels (lines : List PLine) : List (String × ℕ) :=
  lines.enum.filterMap fun p =>
    match p.2 with
    | PLine.label name => some (name, p.1)
    | _ => none

/-- Result of running the fetch-execute loop for a bounded number of
steps. -/
inductive RunResult where
  | finished (s : EmuState)
  | outOfFuel (s : EmuState)
  | error (msg : String)

/-- The `while pc < len(lines)` fetch-execute loop.  A pure label line
re-registers itself at its own index (no change to the prebuilt table)
and advances the counter; `stop` breaks; falling off the end finishes. -/
def runFrom (cg : ℤ → ℚ) (lines : List PLine)
    (labels : List (String × ℕ)) :
    ℕ → ℕ → EmuState → RunResult
  | 0, _, s => RunResult.outOfFuel s
  | Nat.succ fuel, pc, s =>
      if pc < lines.length then
        match lines.getD pc PLine.blank with
        | PLine.blank => runFrom cg lines labels fuel (pc + 1) s
        | PLine.label _ => runFrom cg lines labels fuel (pc + 1) s
        | PLine.instr i =>
            match execInstr cg labels i pc s with
            | StepResult.next pc' s' => runFrom cg lines labels fuel pc' s'
            | StepResult.halt s' => RunResult.finished s'
            | StepResult.fault m => RunResult.error m
      else RunResult.finished s

/-- The state built by `Q1ASMEmulator.__init__` before `run`. -/
def initState (seq : Sequence) : EmuState :=
  { registers := fun _ => 0
    awg_gain_I := 0
    awg_gain_Q := 0
    nco_phase := 0
    nco_phase_stream := []
    awg_offset_I := 0
    awg_offset_Q := 0
    timing := 0
    acquire := false
    acquisitions := seq.acquisitions.map fun p =>
      (p.1, { num_bins := p.2.num_bins, index := p.2.index,
              scope0 := [], scope1 := [] })
    acquisition_channel := none
    acquisition_bin := none
    waveforms := seq.waveforms
    markers := []
    marker_state := 0
    I := []
    Q := []
    current_i_waveform := none
    current_q_waveform := none
    current_i_start_time := 0
    current_q_start_time := 0 }

/-- `Q1ASMEmulator.run`: build the label table, record the initial marker
state and execute, with `fuel` bounding the number of executed lines (the
source's loop is unbounded). -/
def emulatorRun (cg : ℤ → ℚ) (seq : Sequence) (fuel : ℕ) : RunResult :=
  let labels := buildLabels seq.program
  let s0 := initState seq
  let s1 := { s0 with markers := s0.markers ++ [(s0.timing, s0.marker_state)] }
  runFrom cg seq.program labels fuel 0 s1

/-- Final marker state of a finished run, if it finished. -/
def runMarkerState (r : RunResult) : Option ℤ :=
  match r with
  | RunResult.finished s => some s.marker_state
  | _ => none

/-- Final value of a register of a finished run, if it finished. -/
def runRegister (r : RunResult) (name : String) : Option ℤ :=
  match r with
  | RunResult.finished s => some (s.registers name)
  | _ => none

/-- Whether the run raised. -/
def runIsError (r : RunResult) : Bool :=
  match r with
  | RunResult.error _ => true
  | _ => false

/-- Trace invariant: the I and Q traces have equal length, equal to the
simulated-time counter. -/
def tracesOk (s : EmuState) : Prop :=
  s.I.length = s.Q.length ∧ s.I.length = s.timing

/-- A step result whose reachable states satisfy `tracesOk`. -/
def stepTraces : StepResult → Prop
  | StepResult.next _ s => tracesOk s
  | StepResult.halt s => tracesOk s
  | StepResult.fault _ => True

/-- A run result whose reachable states satisfy `tracesOk`. -/
def runTraces : RunResult → Prop
  | RunResult.finished s => tracesOk s
  | RunResult.outOfFuel s => tracesOk s
  | RunResult.error _ => True

/-- A constant stand-in for `convert_gain`, used to instantiate the
gain-conversion parameter on concrete runs. -/
def cg0 : ℤ → ℚ := fun _ => 1

lemma advanceStep_lengths (cg : ℤ → ℚ) (s : EmuState) :
    (advanceStep cg s).I.length = s.I.length + 1 ∧
    (advanceStep cg s).Q.length = s.Q.length + 1 ∧
    (advanceStep cg s).timing = s.timing + 1 := by
  by_cases ha : s.acquire <;> simp [advanceStep, ha]

lemma advanceTime_lengths (cg : ℤ → ℚ) (d : ℕ) (s : EmuState) :
    (advanceTime cg d s).I.length = s.I.length + d ∧
    (advanceTime cg d s).Q.length = s.Q.length + d ∧
    (advanceTime cg d s).timing = s.timing + d := by
  induction d generalizing s with
  | zero => simp [advanceTime]
  | succ k ih =>
      obtain ⟨h1, h2, h3⟩ := ih (advanceStep cg s)
      obtain ⟨g1, g2, g3⟩ := advanceStep_lengths cg s
      refine ⟨?_, ?_, ?_⟩ <;>
        simp only [advanceTime, h1, h2, h3, g1, g2, g3] <;> omega

lemma tracesOk_advanceTime (cg : ℤ → ℚ) (d : ℕ) (s : EmuState)
    (h : tracesOk s) : tracesOk (advanceTime cg d s) := by
  obtain ⟨h1, h2⟩ := h
  obtain ⟨g1, g2, g3⟩ := advanceTime_lengths cg d s
  exact ⟨by omega, by omega⟩

lemma stepTraces_execInstr (cg : ℤ → ℚ) (labels : List (String × ℕ))
    (i : EInstr) (pc : ℕ) (s : EmuState) (h : tracesOk s) :
    stepTraces (execInstr cg labels i pc s) := by
  cases i <;>
    simp only [execInstr] <;>
    repeat' split
  all_goals simp only [stepTraces]
  all_goals
    first
      | trivial
      | exact ⟨h.1, h.2⟩
      | exact tracesOk_advanceTime _ _ _ ⟨h.1, h.2⟩

lemma runTraces_runFrom (cg : ℤ → ℚ) (lines : List PLine)
    (labels : List (String × ℕ)) (fuel pc : ℕ) (s : EmuState)
    (h : tracesOk s) : runTraces (runFrom cg lines labels fuel pc s) := by
  induction fuel generalizing pc s with
  | zero => exact h
  | succ f ih =>
      simp only [runFrom]
      split
      · split
        · exact ih _ _ h
        · exact ih _ _ h
        · rename_i i _
          have hstep := stepTraces_execInstr cg labels i pc s h
          cases hex : execInstr cg labels i pc s with
          | next pc' s' =>
              rw [hex] at hstep
              exact ih _ _ hstep
          | halt s' =>
              rw [hex] at hstep
              exact hstep
          | fault m => trivial
      · exact h

/-- C10: for every program executed by the emulator, the I and Q output
traces have equal length, equal to the final simulated-time counter
(`runTraces` / `tracesOk`), for any gain-conversion function, sequence
and step bound — and each simulated time step of `advance_time` appends
exactly one sample to each of the I and Q traces, regardless of the
acquisition or play state. -/
theorem C10_emulator_trace_lengths (cg : ℤ → ℚ) (seq : Sequence)
    (fuel : ℕ) :
    runTraces (emulatorRun cg seq fuel) ∧
      ∀ (d : ℕ) (s : EmuState),
        (advanceTime cg d s).I.length = s.I.length + d ∧
        (advanceTime cg d s).Q.length = s.Q.length + d ∧
        (advanceTime cg d s).timing = s.timing + d := by
  constructor
  · exact runTraces_runFrom cg seq.program (buildLabels seq.program) fuel 0 _
      ⟨rfl, rfl⟩
  · exact fun d s => advanceTime_lengths cg d s

/-- C4 failing-input evaluation: running `set_mrk 16` (operand outside
[0,15]) does not raise — the guard `> 15 and < 0` can never hold — and the
out-of-range marker state 16 is silently recorded, then `stop` finishes
the run. -/
theorem C4_set_mrk_out_of_range_not_fatal :
    runMarkerState (emulatorRun cg0
      { program := [PLine.instr (EInstr.set_mrk (EOperand.imm 16)),
                    PLine.instr EInstr.stop],
        waveforms := [], acquisitions := [] } 5) = some 16 := by rfl

/-- C3 failing-input evaluation: `jge R0,3,@done` after `move 1,R0`.
The claim (and spec) say the jump is taken iff `R0 ≥ 3`, so with `R0 = 1`
execution should fall through to `stop` and finish; with `R0 = 7` it
should jump to `done` and finish.  The source instead tests `R0 >= 0` and
looks up the label table with the immediate's text `"3"`, so both runs
die with a `KeyError` (modelled as the `undefined label` fault). -/
theorem C3_jge_failing_input :
    emulatorRun cg0
      { program := [PLine.instr (EInstr.move 1 "R0"),
                    PLine.instr (EInstr.jge "R0" 3 "@done"),
                    PLine.instr EInstr.stop,
                    PLine.label "done",
                    PLine.instr EInstr.stop],
        waveforms := [], acquisitions := [] } 10 =
      RunResult.error "undefined label" ∧
    emulatorRun cg0
      { program := [PLine.instr (EInstr.move 7 "R0"),
                    PLine.instr (EInstr.jge "R0" 3 "@done"),
                    PLine.instr EInstr.stop,
                    PLine.label "done",
                    PLine.instr EInstr.stop],
        waveforms := [], acquisitions := [] } 10 =
      RunResult.error "undefined label" := by
  exact ⟨rfl, rfl⟩

/-- C5 counterexample: an `add` writing `2^32` (after `move` loaded
`2^32 - 1`) is not fatal — the run finishes with the register holding a
value not representable in 32 bits, refuting the claim that every
register-writing opcode checks the 32-bit bound. -/
theorem C5_counterexample :
    runRegister (emulatorRun cg0
      { program := [PLine.instr (EInstr.move 4294967295 "R2"),
                    PLine.instr (EInstr.add "R2" (EOperand.imm 1) "R2"),
                    PLine.instr EInstr.stop],
        waveforms := [], acquisitions := [] } 10) "R2" =
      some 4294967296 := by rfl

/-- C5 (amended): only the `move` opcode enforces the 32-bit bound —
`move n,dst` faults exactly when `n > 2^32 - 1` — while `add`, `sub` and
`asl` write their results to the destination register without any bound
check (so a non-erroring step can leave a register value `≥ 2^32`). -/
theorem C5_register_write_checks (cg : ℤ → ℚ)
    (labels : List (String × ℕ)) (pc : ℕ) (s : EmuState) (n : ℤ)
    (dst r1 : String) (b : EOperand) :
    (2 ^ 32 ≤ n →
      execInstr cg labels (EInstr.move n dst) pc s =
        StepResult.fault "Registars can only store 32 bit integers") ∧
    (n ≤ 2 ^ 32 - 1 →
      execInstr cg labels (EInstr.move n dst) pc s =
        StepResult.next (pc + 1)
          { s with registers := updateReg s.registers dst n }) ∧
    execInstr cg labels (EInstr.add r1 b dst) pc s =
      StepResult.next (pc + 1)
        { s with registers :=
            updateReg s.registers dst (s.registers r1 + operandValue s b) } ∧
    execInstr cg labels (EInstr.sub r1 b dst) pc s =
      StepResult.next (pc + 1)
        { s with registers :=
            updateReg s.registers dst (s.registers r1 - operandValue s b) } ∧
    execInstr cg labels (EInstr.asl r1 n dst) pc s =
      StepResult.next (pc + 2)
        { s with registers :=
            updateReg s.registers dst (s.registers r1 * 2 ^ n.toNat) } := by
  refine ⟨?_, ?_, rfl, rfl, rfl⟩
  · intro hn
    simp only [execInstr, if_pos (by omega : n > 2 ^ 32 - 1)]
  · intro hn
    simp only [execInstr, if_neg (by omega : ¬ n > 2 ^ 32 - 1)]

/-- The empty sequence, for concrete instantiations. -/
def emptySeq : Sequence :=
  { program := [], waveforms := [], acquisitions := [] }

/-- Witness for C5 (amended): concrete instances. -/
theorem C5_register_write_checks_witness :
    execInstr cg0 [] (EInstr.move 4294967296 "R2") 0 (initState emptySeq) =
      StepResult.fault "Registars can only store 32 bit integers" ∧
    execInstr cg0 [] (EInstr.move 7 "R2") 0 (initState emptySeq) =
      StepResult.next 1
        { initState emptySeq with
          registers := updateReg (initState emptySeq).registers "R2" 7 } := by
  refine ⟨?_, ?_⟩
  · exact (C5_register_write_checks cg0 [] 0 (initState emptySeq)
      4294967296 "R2" "R2" (EOperand.imm 1)).1 (by norm_num)
  · exact (C5_register_write_checks cg0 [] 0 (initState emptySeq)
      7 "R2" "R2" (EOperand.imm 1)).2.1 (by norm_num)

/-! ## Long-waveform loop-folding (`qblox_esr.q1asm_transform_long_waveforms`)

Only the waveform-table half of the pass is embedded (source lines
967-1022); the rewriting of the `play` instructions (lines 1024-1066)
reuses the loop counts computed here and is not needed by any claim.
Python dict assignment over an insertion-ordered table is `dictAssign`.
The pass starts with `copy.deepcopy(waveforms)`, so all writes hit the
copy: the caller's dictionary is unchanged — `...tables` below returns
the pair (caller's table after the call, returned table). -/

/-- Python `d[k] = v`: overwrite in place if the key exists, else append. -/
def dictAssign {κ α : Type} [DecidableEq κ] (ls : List (κ × α)) (k : κ)
    (v : α) : List (κ × α) :=
  if ls.any (fun p => p.1 = k) then
    ls.map fun p => if p.1 = k then (k, v) else p
  else ls ++ [(k, v)]

/-- Length of an optional complementary waveform (0 when none). -/
def compLen : Option (List ℚ) → ℕ
  | none => 0
  | some c => c.length

/-- Per-waveform body of the long-waveform pass: the `step` asserts of
the selection loop (lines 977-981) and the shortening loop body (lines
989-1022).  Returns the shortened waveform, the loop count and the
optional complementary waveform. -/
def foldOne (step : ℕ) (data : List ℚ) :
    Except String (List ℚ × ℕ × Option (List ℚ)) :=
  if ¬ 3 * step < data.length then
    Except.error "step value should be < len(data)/3"
  else if ¬ 24 ≤ step then
    Except.error "step value should be >= 24ns, high risk of underflow"
  else
    match data with
    | [] => Except.error "empty waveform"
    | x :: _ =>
        if ¬ data.count x = data.length then
          Except.error "waveform to be looped should be constant"
        else
          let nb_loop := data.length / step
          if 0 < data.length % step then
            let comp_duration := data.length % step
            let pair :=
              if comp_duration < 4 then (comp_duration + step, nb_loop - 1)
              else (comp_duration, nb_loop)
            Except.ok (data.take step, pair.2, some (data.take pair.1))
          else
            Except.ok (data.take step, nb_loop, none)

/-- The waveform-table transformation of the pass: process each waveform
longer than 1000 samples in table order, allocating complementary indices
1023, 1022, ... downward. -/
def processSelected (step : ℕ) :
    List String → List (String × WfEntry) → ℕ →
      Except String (List (String × WfEntry))
  | [], wfms, _ => Except.ok wfms
  | name :: rest, wfms, nb_compl =>
      match dictLookup wfms name with
      | none => Except.error "missing waveform"
      | some e =>
          match foldOne step e.data with
          | Except.error m => Except.error m
          | Except.ok (folded, _, comp) =>
              match comp with
              | none =>
                  processSelected step rest
                    (dictAssign wfms name { e with data := folded }) nb_compl
              | some cdata =>
                  if wfms.any (fun p => p.1 = name ++ "_compl") then
                    Except.error "complementary waveform index already used"
                  else
                    let wfms1 := dictAssign wfms (name ++ "_compl")
                      { data := cdata, index := 1023 - nb_compl }
                    processSelected step rest
                      (dictAssign wfms1 name { e with data := folded })
                      (nb_compl + 1)

/-- Caller-visible effect of `q1asm_transform_long_waveforms` on tables:
`(caller's dictionary after the call, returned table)`.  The source
deep-copies the input before writing, so the first component is the
unchanged input. -/
def q1asm_transform_long_waveforms_tables (step : ℕ)
    (waveforms : List (String × WfEntry)) :
    Except String (List (String × WfEntry) × List (String × WfEntry)) :=
  match processSelected step
      ((waveforms.filter fun p => 1000 < p.2.data.length).map fun p => p.1)
      waveforms 0 with
  | Except.error m => Except.error m
  | Except.ok wfms => Except.ok (waveforms, wfms)

/-! ## Long-chirp expansion (`qblox_esr.q1asm_transform_long_chirps`)

Only the waveform-table effect is embedded (source lines 1126-1188): for
each `play_lg_chirp` line the pass validates the parameters and assigns a
ramp waveform `chirpsm{chirp_index}` with index `chirp_index + 300`
directly into the caller's `waveforms` dictionary (there is no copy), and
finally returns that same dictionary.  The emitted three-loop Q1ASM block
(lines 1196-1223) touches no table and is outside every claim.  Python
would raise `ZeroDivisionError` in the ramp comprehension when
`ns * sm = 0`; that implicit error path is made explicit. -/

/-- The chirp parameter dictionary (`bw`, `sm`, `delta_f`, optional
`step`, defaulting to 50). -/
structure ChirpParam where
  bw : ℤ
  sm : ℕ
  delta_f : ℤ
  step : Option ℕ
deriving DecidableEq, Repr

/-- A program line as seen by the chirp pass: a `play_lg_chirp` line
carrying its parameter dictionary and trailing duration, or any other
line (left unchanged). -/
inductive CLine where
  | chirp (p : ChirpParam) (dur : ℤ)
  | other
deriving DecidableEq, Repr

/-- `np.round(x, 8)`: round to 8 decimal places, ties to even. -/
def roundQ8 (x : ℚ) : ℚ := (roundHalfEven (x * 10 ^ 8) : ℚ) / 10 ^ 8

/-- The ramp waveform of one chirp: duration = one time step, a linear
ramp sampled at 8 decimals. -/
def chirpRamp (step ns sm : ℕ) : List ℚ :=
  (List.range step).map fun i =>
    roundQ8 (((i : ℚ) / (step : ℚ)) / ((ns : ℚ) * (sm : ℚ) / 100))

/-- The chirp pass's walk over the program, threading `chirp_index`
(starting at 1) and writing each ramp into the waveform dictionary. -/
def chirpsGo : List CLine → List (String × WfEntry) → ℕ →
    Except String (List (String × WfEntry))
  | [], wfms, _ => Except.ok wfms
  | CLine.other :: rest, wfms, idx => chirpsGo rest wfms idx
  | CLine.chirp p dur :: rest, wfms, idx =>
      if p.delta_f < 0 then
        Except.error "negative centre frequency (delta_f<0) not supported"
      else
        let step := p.step.getD 50
        let duration := dur - 8
        if ¬ duration % (step : ℤ) = 0 then
          Except.error "duration must be a multiple of step"
        else if ¬ duration * (p.sm : ℤ) % (step : ℤ) = 0 then
          Except.error "sm*(duration-8) must be a multiple of step."
        else
          let ns := (duration / (step : ℤ)).toNat
          if ns * p.sm = 0 then
            Except.error "division by zero in ramp computation"
          else
            chirpsGo rest
              (dictAssign wfms ("chirpsm" ++ toString idx)
                { data := chirpRamp step ns p.sm, index := idx + 300 })
              (idx + 1)

/-- Caller-visible effect of `q1asm_transform_long_chirps` on tables:
`(caller's dictionary after the call, returned table)`.  The source
mutates and returns the caller's dictionary itself, so the two
components coincide. -/
def q1asm_transform_long_chirps_tables (lines : List CLine)
    (waveforms : List (String × WfEntry)) :
    Except String (List (String × WfEntry) × List (String × WfEntry)) :=
  match chirpsGo lines waveforms 1 with
  | Except.error m => Except.error m
  | Except.ok wfms => Except.ok (wfms, wfms)

/-- C6: whenever the long-waveform pass folds a waveform (the fold
succeeds, which entails the pass's step bounds `24 ≤ step`,
`3*step < length` and constancy; the pass applies it to waveforms longer
than 1000 samples), the loop count times the step length plus the length
of the complementary waveform (zero when none is created) equals the
original waveform's length; the folded waveform has length `step`; and no
complementary waveform is created exactly when the length is a multiple
of the step. -/
theorem C6_fold_preserves_length (step : ℕ) (data folded : List ℚ)
    (nbLoop : ℕ) (comp : Option (List ℚ))
    (h : foldOne step data = Except.ok (folded, nbLoop, comp)) :
    nbLoop * step + compLen comp = data.length ∧
    folded.length = step ∧
    (comp = none ↔ data.length % step = 0) := by
  cases data with
  | nil => simp [foldOne] at h
  | cons x tail =>
      unfold foldOne at h
      dsimp only at h
      split_ifs at h with h1 h2 h3 h4 h5
      · -- remainder in (0,4): complementary waveform boosted by a step
        have hstep : 0 < step := by omega
        have hdm := Nat.div_add_mod (x :: tail).length step
        have hq3 : 3 ≤ (x :: tail).length / step :=
          (Nat.le_div_iff_mul_le hstep).2 (by omega)
        have hr : (x :: tail).length % step < step := Nat.mod_lt _ hstep
        simp only [Except.ok.injEq, Prod.mk.injEq] at h
        obtain ⟨hf, hn, hc⟩ := h
        subst hf hn hc
        refine ⟨?_, ?_, ?_⟩
        · simp only [compLen, List.length_take]
          obtain ⟨q', hq'⟩ : ∃ t, (x :: tail).length / step = t + 1 :=
            ⟨(x :: tail).length / step - 1, by omega⟩
          rw [hq']
          have hmin : min ((x :: tail).length % step + step)
              (x :: tail).length = (x :: tail).length % step + step := by
            omega
          rw [hmin]
          have hL : step * (q' + 1) + (x :: tail).length % step =
              (x :: tail).length := by rw [← hq']; exact hdm
          calc (q' + 1 - 1) * step +
                ((x :: tail).length % step + step)
              = step * (q' + 1) + (x :: tail).length % step := by
                simp only [Nat.add_sub_cancel]; ring
            _ = (x :: tail).length := hL
        · simp only [List.length_take]; omega
        · simp only [reduceCtorEq, false_iff]; omega
      · -- remainder ≥ 4: complementary waveform holds it as is
        have hstep : 0 < step := by omega
        have hdm := Nat.div_add_mod (x :: tail).length step
        have hr : (x :: tail).length % step < step := Nat.mod_lt _ hstep
        simp only [Except.ok.injEq, Prod.mk.injEq] at h
        obtain ⟨hf, hn, hc⟩ := h
        subst hf hn hc
        refine ⟨?_, ?_, ?_⟩
        · simp only [compLen, List.length_take]
          have hmin : min ((x :: tail).length % step)
              (x :: tail).length = (x :: tail).length % step := by omega
          rw [hmin]
          calc (x :: tail).length / step * step +
                (x :: tail).length % step
              = step * ((x :: tail).length / step) +
                (x :: tail).length % step := by ring
            _ = (x :: tail).length := hdm
        · simp only [List.length_take]; omega
        · simp only [reduceCtorEq, false_iff]; omega
      · -- exact multiple of the step: no complementary waveform
        have hstep : 0 < step := by omega
        have hdm := Nat.div_add_mod (x :: tail).length step
        simp only [Except.ok.injEq, Prod.mk.injEq] at h
        obtain ⟨hf, hn, hc⟩ := h
        subst hf hn hc
        refine ⟨?_, ?_, ?_⟩
        · simp only [compLen]
          have hr0 : (x :: tail).length % step = 0 := by omega
          calc (x :: tail).length / step * step + 0
              = step * ((x :: tail).length / step) +
                (x :: tail).length % step := by rw [hr0]; ring
            _ = (x :: tail).length := hdm
        · simp only [List.length_take]; omega
        · simp only [true_iff]; omega

set_option maxRecDepth 10000 in
/-- Witness for C6: a constant 100-sample waveform folded with step 24
(loop count 4, remainder 4, complementary waveform of 4 samples). -/
theorem C6_fold_preserves_length_witness :
    4 * 24 + compLen (some (List.replicate 4 (1 : ℚ))) =
      (List.replicate 100 (1 : ℚ)).length ∧
    (List.replicate 24 (1 : ℚ)).length = 24 ∧
    (some (List.replicate 4 (1 : ℚ)) = none ↔
      (List.replicate 100 (1 : ℚ)).length % 24 = 0) :=
  C6_fold_preserves_length 24 (List.replicate 100 1)
    (List.replicate 24 1) 4 (some (List.replicate 4 1)) (by rfl)

/-- C8 counterexample: the long-chirp pass writes its ramp waveform into
the dictionary passed in — after expanding one `play_lg_chirp` line over
an (initially empty) table, the caller's dictionary is no longer the
original table, refuting "returns their modified table without mutating
the dictionary passed in". -/
theorem C8_counterexample :
    (q1asm_transform_long_chirps_tables
        [CLine.chirp { bw := 4, sm := 10, delta_f := 0, step := none } 508]
        []).map Prod.fst ≠
      Except.ok [] := by
  have hv : (q1asm_transform_long_chirps_tables
      [CLine.chirp { bw := 4, sm := 10, delta_f := 0, step := none } 508]
      []).map Prod.fst =
      Except.ok [("chirpsm1",
        { data := chirpRamp 50 10 10, index := 301 })] := by rfl
  rw [hv]
  simp

/-- C8 (amended): the long-waveform folding pass deep-copies the table,
so the caller's dictionary after the call is the unchanged input; the
long-chirp expansion pass writes its chirp-smoothing waveforms directly
into the caller's dictionary and returns that same dictionary (the two
coincide), so callers must not rely on the chirp pass leaving the input
table unmutated. -/
theorem C8_table_copying (step : ℕ) (wfs wfs2 : List (String × WfEntry))
    (lines : List CLine) :
    (∀ ca ret, q1asm_transform_long_waveforms_tables step wfs =
        Except.ok (ca, ret) → ca = wfs) ∧
    (∀ ca ret, q1asm_transform_long_chirps_tables lines wfs2 =
        Except.ok (ca, ret) → ca = ret) := by
  constructor
  · intro ca ret h
    unfold q1asm_transform_long_waveforms_tables at h
    cases hp : processSelected step
        ((wfs.filter fun p => 1000 < p.2.data.length).map fun p => p.1)
        wfs 0 with
    | error m => rw [hp] at h; exact absurd h (by simp)
    | ok w =>
        rw [hp] at h
        simp only [Except.ok.injEq, Prod.mk.injEq] at h
        exact h.1.symm
  · intro ca ret h
    unfold q1asm_transform_long_chirps_tables at h
    cases hg : chirpsGo lines wfs2 1 with
    | error m => rw [hg] at h; exact absurd h (by simp)
    | ok w =>
        rw [hg] at h
        simp only [Except.ok.injEq, Prod.mk.injEq] at h
        rw [← h.1, ← h.2]

/-- Witness for C8 (amended): concrete instances of both conjuncts. -/
theorem C8_table_copying_witness :
    ([("a", ({ data := [1], index := 0 } : WfEntry))] :
        List (String × WfEntry)) =
      [("a", ({ data := [1], index := 0 } : WfEntry))] ∧
    ([("chirpsm1",
        ({ data := chirpRamp 50 10 10, index := 301 } : WfEntry))] :
        List (String × WfEntry)) =
      [("chirpsm1",
        ({ data := chirpRamp 50 10 10, index := 301 } : WfEntry))] := by
  constructor
  · exact (C8_table_copying 24 [("a", { data := [1], index := 0 })] []
      []).1 [("a", { data := [1], index := 0 })]
      [("a", { data := [1], index := 0 })] rfl
  · exact (C8_table_copying 24 [] []
      [CLine.chirp { bw := 4, sm := 10, delta_f := 0, step := none } 508]).2
      [("chirpsm1", { data := chirpRamp 50 10 10, index := 301 })]
      [("chirpsm1", { data := chirpRamp 50 10 10, index := 301 })] rfl

/-! ## Protection-marker insertion (`qblox_esr.q1asm_insert_twt_switch_markers`)

The pass walks the program lines textually.  A line is classified exactly
as the source does: a simple wait (`q1asm_line_issimplewait`: contains
`wait` with a number and is not `wait_sync`), a line containing `play`
(the same substring test used by `q1asm_count_play`, so e.g. a
`loop_play1:` label line would also count as a play in both places), a
`set_mrk k` line, the literal `end`, or anything else (passed through
verbatim).  Durations are the parsed naturals `nb[0]`. -/

/-- Input line classification of the marker-insertion pass. -/
inductive SLine where
  | wait (n : ℕ)
  | play (d : ℕ)
  | mrk (k : ℕ)
  | endl
  | other
deriving DecidableEq, Repr

/-- Output lines emitted by the marker-insertion pass. -/
inductive OLine where
  | wait (n : ℕ)
  | play (d : ℕ)
  | mrk (k : ℕ)
  | upd (n : ℕ)
  | endl
  | other
deriving DecidableEq, Repr

/-- `q1asm_count_play`: number of lines containing `play`. -/
def q1asm_count_play (lines : List SLine) : ℕ :=
  (lines.filter fun l =>
    match l with
    | SLine.play _ => true
    | _ => false).length

/-- Whether an input line is a `set_mrk` line. -/
def isMrkLine : SLine → Bool
  | SLine.mrk _ => true
  | _ => false

/-- The five configurable inserted delays of the pass. -/
structure TwtConfig where
  switch_open_postdelay : ℕ
  amp_on_postdelay : ℕ
  amp_off_predelay : ℕ
  amp_off_postdelay : ℕ
  switch_closed_postdelay : ℕ
deriving DecidableEq, Repr

/-- The default parameter values of `q1asm_insert_twt_switch_markers`. -/
def twtDefault : TwtConfig :=
  { switch_open_postdelay := 0
    amp_on_postdelay := 250
    amp_off_predelay := 50
    amp_off_postdelay := 250
    switch_closed_postdelay := 150 }

/-- The line walk of `q1asm_insert_twt_switch_markers` (source lines
561-645), threading the `amp` and `switch_open` booleans, the play
counter and the pending `delay_reduction`.  The final check is the
closing `assert delay_reduction == 0`. -/
def twtGo (cfg : TwtConfig) (wfmNb : ℕ) :
    List SLine → Bool → Bool → ℕ → ℕ → Except String (List OLine)
  | [], _, _, _, dr =>
      if dr = 0 then Except.ok []
      else Except.error "error with delay for markers"
  | SLine.wait n :: rest, amp, switch, counter, dr =>
      if 1 ≤ counter ∧ counter < wfmNb ∧ 1000 < n ∧ amp = true then
        -- long interpulse delay with the amplifier on: insert the
        -- amp-off pair; the accumulated reduction is then positive and
        -- must be absorbed by this wait
        let emit1 :=
          (if 4 < cfg.amp_off_predelay then [OLine.wait cfg.amp_off_predelay]
           else []) ++ [OLine.mrk 11, OLine.upd 4]
        let dr1 := dr +
          (if 4 < cfg.amp_off_predelay then cfg.amp_off_predelay else 0) +
          cfg.switch_open_postdelay + cfg.amp_on_postdelay + 4
        if dr1 < n then
          match twtGo cfg wfmNb rest false switch counter 0 with
          | Except.error e => Except.error e
          | Except.ok out =>
              Except.ok (emit1 ++ OLine.wait (n - dr1) :: out)
        else Except.error "wait delay is too short"
      else
        if 0 < dr then
          if dr < n then
            match twtGo cfg wfmNb rest amp switch counter 0 with
            | Except.error e => Except.error e
            | Except.ok out => Except.ok (OLine.wait (n - dr) :: out)
          else Except.error "wait delay is too short"
        else
          match twtGo cfg wfmNb rest amp switch counter dr with
          | Except.error e => Except.error e
          | Except.ok out => Except.ok (OLine.wait n :: out)
  | SLine.play d :: rest, amp, switch, counter, dr =>
      let emitSwitch :=
        if switch = false ∧ 0 < cfg.switch_open_postdelay then
          [OLine.mrk 7, OLine.upd cfg.switch_open_postdelay]
        else []
      let switch1 :=
        if switch = false ∧ 0 < cfg.switch_open_postdelay then true
        else switch
      let emitAmp :=
        if amp = false then [OLine.mrk 15, OLine.upd cfg.amp_on_postdelay]
        else []
      let switch2 := if amp = false then true else switch1
      if counter + 1 = wfmNb then
        -- last pulse: turn the amplifier off and close the switch
        if dr = 0 then
          let e1 :=
            if 4 < cfg.amp_off_predelay then [OLine.wait cfg.amp_off_predelay]
            else []
          let e2 :=
            if 4 < cfg.amp_off_predelay ∨ 4 < cfg.amp_off_postdelay then
              [OLine.mrk 11]
            else []
          let e3 :=
            if 4 < cfg.amp_off_postdelay then [OLine.upd cfg.amp_off_postdelay]
            else []
          let e5 :=
            if 4 < cfg.switch_closed_postdelay then
              [OLine.upd cfg.switch_closed_postdelay]
            else []
          let dr1 :=
            (if 4 < cfg.amp_off_predelay then cfg.amp_off_predelay else 0) +
            (if 4 < cfg.amp_off_postdelay then cfg.amp_off_postdelay else 0) +
            (if 4 < cfg.switch_closed_postdelay then
              cfg.switch_closed_postdelay else 0)
          match twtGo cfg wfmNb rest true switch2 (counter + 1) dr1 with
          | Except.error e => Except.error e
          | Except.ok out =>
              Except.ok (emitSwitch ++ emitAmp ++ OLine.play d ::
                (e1 ++ e2 ++ e3 ++ OLine.mrk 3 :: (e5 ++ out)))
        else Except.error "previous delay reduction not applied"
      else
        match twtGo cfg wfmNb rest true switch2 (counter + 1) dr with
        | Except.error e => Except.error e
        | Except.ok out =>
            Except.ok (emitSwitch ++ emitAmp ++ OLine.play d :: out)
  | SLine.mrk k :: rest, amp, switch, counter, dr =>
      match twtGo cfg wfmNb rest amp switch counter dr with
      | Except.error e => Except.error e
      | Except.ok out => Except.ok (OLine.mrk k :: out)
  | SLine.endl :: rest, amp, switch, counter, dr =>
      if dr = 0 then
        match twtGo cfg wfmNb rest amp switch counter dr with
        | Except.error e => Except.error e
        | Except.ok out => Except.ok (OLine.endl :: out)
      else Except.error "wait time expected before end instruction"
  | SLine.other :: rest, amp, switch, counter, dr =>
      match twtGo cfg wfmNb rest amp switch counter dr with
      | Except.error e => Except.error e
      | Except.ok out => Except.ok (OLine.other :: out)

/-- `q1asm_insert_twt_switch_markers`: the opening asserts on the five
configurable delays (each 0 or > 4), then the walk with both booleans
false, counter 0 and no pending reduction. -/
def q1asm_insert_twt_switch_markers (cfg : TwtConfig)
    (lines : List SLine) : Except String (List OLine) :=
  if (cfg.switch_open_postdelay = 0 ∨ 4 < cfg.switch_open_postdelay) ∧
      (cfg.amp_on_postdelay = 0 ∨ 4 < cfg.amp_on_postdelay) ∧
      (cfg.amp_off_predelay = 0 ∨ 4 < cfg.amp_off_predelay) ∧
      (cfg.amp_off_postdelay = 0 ∨ 4 < cfg.amp_off_postdelay) ∧
      (cfg.switch_closed_postdelay = 0 ∨ 4 < cfg.switch_closed_postdelay) then
    twtGo cfg (q1asm_count_play lines) lines false false 0 0
  else Except.error "optional delays should be 0 or >4"

/-- The overtrigger validator's final condition on the emitted marker
timeline: every amplifier-on marker (`set_mrk 15`) is followed by a later
marker change to an amplifier-off state (`set_mrk 11` or `set_mrk 3`). -/
def mrkClosed (out : List OLine) : Prop :=
  ∀ (i : ℕ) (hi : i < out.length), out.get ⟨i, hi⟩ = OLine.mrk 15 →
    ∃ (j : ℕ) (hj : j < out.length), i < j ∧
      (out.get ⟨j, hj⟩ = OLine.mrk 11 ∨ out.get ⟨j, hj⟩ = OLine.mrk 3)

@[simp] lemma q1asm_count_play_nil : q1asm_count_play [] = 0 := rfl

@[simp] lemma q1asm_count_play_cons_wait (n : ℕ) (tl : List SLine) :
    q1asm_count_play (SLine.wait n :: tl) = q1asm_count_play tl := by
  simp [q1asm_count_play, List.filter]

@[simp] lemma q1asm_count_play_cons_play (d : ℕ) (tl : List SLine) :
    q1asm_count_play (SLine.play d :: tl) = q1asm_count_play tl + 1 := by
  simp [q1asm_count_play, List.filter]

@[simp] lemma q1asm_count_play_cons_mrk (k : ℕ) (tl : List SLine) :
    q1asm_count_play (SLine.mrk k :: tl) = q1asm_count_play tl := by
  simp [q1asm_count_play, List.filter]

@[simp] lemma q1asm_count_play_cons_endl (tl : List SLine) :
    q1asm_count_play (SLine.endl :: tl) = q1asm_count_play tl := by
  simp [q1asm_count_play, List.filter]

@[simp] lemma q1asm_count_play_cons_other (tl : List SLine) :
    q1asm_count_play (SLine.other :: tl) = q1asm_count_play tl := by
  simp [q1asm_count_play, List.filter]

lemma mem_ite_singleton {α : Type} {c : Prop} [Decidable c] {x y : α}
    (h : y ∈ (if c then [x] else [])) : y = x := by
  by_cases hc : c <;> simp [hc] at h
  exact h

lemma twtGo_closure (cfg : TwtConfig) (wfmNb : ℕ) :
    ∀ (rest : List SLine) (amp switch : Bool) (counter dr : ℕ)
      (out : List OLine),
      twtGo cfg wfmNb rest amp switch counter dr = Except.ok out →
      counter + q1asm_count_play rest = wfmNb →
      (∀ l ∈ rest, isMrkLine l = false) →
      ((q1asm_count_play rest = 0 → ∀ k ∈ out, k ≠ OLine.mrk 15) ∧
        (0 < q1asm_count_play rest →
          ∃ l1 l2, out = l1 ++ OLine.mrk 3 :: l2 ∧
            ∀ k ∈ l2, k ≠ OLine.mrk 15)) := by
  intro rest
  induction rest with
  | nil =>
      intro amp switch counter dr out h _ _
      simp only [twtGo] at h
      split_ifs at h
      simp only [Except.ok.injEq] at h
      subst h
      constructor
      · intro _ k hk; simp at hk
      · intro h0; simp at h0
  | cons hd tl ih =>
      intro amp switch counter dr out h hcount hmrk
      have hmrk' : ∀ l ∈ tl, isMrkLine l = false :=
        fun l hl => hmrk l (List.mem_cons_of_mem _ hl)
      cases hd with
      | mrk k =>
          have := hmrk (SLine.mrk k) (List.mem_cons_self _ _)
          simp [isMrkLine] at this
      | other =>
          simp only [twtGo] at h
          cases hrec : twtGo cfg wfmNb tl amp switch counter dr with
          | error e => rw [hrec] at h; exact absurd h (by simp)
          | ok out' =>
              rw [hrec] at h
              simp only [Except.ok.injEq] at h
              subst h
              obtain ⟨ih1, ih2⟩ := ih amp switch counter dr out' hrec
                (by simpa using hcount) hmrk'
              constructor
              · intro h0 k hk
                rcases List.mem_cons.1 hk with rfl | hk'
                · simp
                · exact ih1 (by simpa using h0) k hk'
              · intro h0
                obtain ⟨l1, l2, hdec, h15⟩ := ih2 (by simpa using h0)
                exact ⟨OLine.other :: l1, l2, by rw [hdec]; rfl, h15⟩
      | endl =>
          simp only [twtGo] at h
          split_ifs at h with hdr
          cases hrec : twtGo cfg wfmNb tl amp switch counter dr with
          | error e => rw [hrec] at h; exact absurd h (by simp)
          | ok out' =>
              rw [hrec] at h
              simp only [Except.ok.injEq] at h
              subst h
              obtain ⟨ih1, ih2⟩ := ih amp switch counter dr out' hrec
                (by simpa using hcount) hmrk'
              constructor
              · intro h0 k hk
                rcases List.mem_cons.1 hk with rfl | hk'
                · simp
                · exact ih1 (by simpa using h0) k hk'
              · intro h0
                obtain ⟨l1, l2, hdec, h15⟩ := ih2 (by simpa using h0)
                exact ⟨OLine.endl :: l1, l2, by rw [hdec]; rfl, h15⟩
      | wait n =>
          simp only [twtGo] at h
          by_cases hlong :
              1 ≤ counter ∧ counter < wfmNb ∧ 1000 < n ∧ amp = true
          · rw [if_pos hlong] at h
            by_cases hdlt : dr +
                (if 4 < cfg.amp_off_predelay then cfg.amp_off_predelay
                 else 0) + cfg.switch_open_postdelay +
                cfg.amp_on_postdelay + 4 < n
            case neg => rw [if_neg hdlt] at h; exact absurd h (by simp)
            rw [if_pos hdlt] at h
            cases hrec : twtGo cfg wfmNb tl false switch counter 0 with
            | error e => rw [hrec] at h; exact absurd h (by simp)
            | ok out' =>
                rw [hrec] at h
                simp only [Except.ok.injEq] at h
                subst h
                obtain ⟨ih1, ih2⟩ := ih false switch counter 0 out' hrec
                  (by simpa using hcount) hmrk'
                constructor
                · intro h0 k hk
                  rcases List.mem_append.1 hk with hk1 | hk2
                  · rcases List.mem_append.1 hk1 with hk3 | hk4
                    · rw [mem_ite_singleton hk3]; simp
                    · rcases List.mem_cons.1 hk4 with rfl | hk5
                      · simp
                      · rcases List.mem_cons.1 hk5 with rfl | hk6
                        · simp
                        · simp at hk6
                  · rcases List.mem_cons.1 hk2 with rfl | hk7
                    · simp
                    · exact ih1 (by simpa using h0) k hk7
                · intro h0
                  obtain ⟨l1, l2, hdec, h15⟩ := ih2 (by simpa using h0)
                  refine ⟨((if 4 < cfg.amp_off_predelay then
                      [OLine.wait cfg.amp_off_predelay] else []) ++
                      [OLine.mrk 11, OLine.upd 4]) ++
                      OLine.wait (n - (dr + (if 4 < cfg.amp_off_predelay
                        then cfg.amp_off_predelay else 0) +
                        cfg.switch_open_postdelay + cfg.amp_on_postdelay
                        + 4)) :: l1, l2, ?_, h15⟩
                  rw [hdec]
                  simp [List.append_assoc]
          · rw [if_neg hlong] at h
            split_ifs at h with hdr hlt
            · -- pending reduction absorbed by this wait
              cases hrec : twtGo cfg wfmNb tl amp switch counter 0 with
              | error e => rw [hrec] at h; exact absurd h (by simp)
              | ok out' =>
                  rw [hrec] at h
                  simp only [Except.ok.injEq] at h
                  subst h
                  obtain ⟨ih1, ih2⟩ := ih amp switch counter 0 out' hrec
                    (by simpa using hcount) hmrk'
                  constructor
                  · intro h0 k hk
                    rcases List.mem_cons.1 hk with rfl | hk'
                    · simp
                    · exact ih1 (by simpa using h0) k hk'
                  · intro h0
                    obtain ⟨l1, l2, hdec, h15⟩ := ih2 (by simpa using h0)
                    exact ⟨OLine.wait (n - dr) :: l1, l2,
                      by rw [hdec]; rfl, h15⟩
            · -- no pending reduction
              cases hrec : twtGo cfg wfmNb tl amp switch counter dr with
              | error e => rw [hrec] at h; exact absurd h (by simp)
              | ok out' =>
                  rw [hrec] at h
                  simp only [Except.ok.injEq] at h
                  subst h
                  obtain ⟨ih1, ih2⟩ := ih amp switch counter dr out' hrec
                    (by simpa using hcount) hmrk'
                  constructor
                  · intro h0 k hk
                    rcases List.mem_cons.1 hk with rfl | hk'
                    · simp
                    · exact ih1 (by simpa using h0) k hk'
                  · intro h0
                    obtain ⟨l1, l2, hdec, h15⟩ := ih2 (by simpa using h0)
                    exact ⟨OLine.wait n :: l1, l2, by rw [hdec]; rfl, h15⟩
      | play d =>
          simp only [twtGo] at h
          by_cases hlast : counter + 1 = wfmNb
          · rw [if_pos hlast] at h
            by_cases hdr : dr = 0
            case neg => rw [if_neg hdr] at h; exact absurd h (by simp)
            rw [if_pos hdr] at h
            cases hrec : twtGo cfg wfmNb tl true
                (if amp = false then true
                 else if switch = false ∧ 0 < cfg.switch_open_postdelay
                 then true else switch) (counter + 1)
                ((if 4 < cfg.amp_off_predelay then cfg.amp_off_predelay
                  else 0) +
                 (if 4 < cfg.amp_off_postdelay then cfg.amp_off_postdelay
                  else 0) +
                 (if 4 < cfg.switch_closed_postdelay then
                  cfg.switch_closed_postdelay else 0)) with
            | error e => rw [hrec] at h; exact absurd h (by simp)
            | ok out' =>
                rw [hrec] at h
                simp only [Except.ok.injEq] at h
                subst h
                have htl0 : q1asm_count_play tl = 0 := by
                  simp at hcount; omega
                obtain ⟨ih1, _⟩ := ih true _ (counter + 1) _ out' hrec
                  (by omega) hmrk'
                constructor
                · intro h0; simp at h0
                · intro _
                  refine ⟨(if switch = false ∧
                        0 < cfg.switch_open_postdelay then
                        [OLine.mrk 7, OLine.upd cfg.switch_open_postdelay]
                      else []) ++
                      (if amp = false then
                        [OLine.mrk 15, OLine.upd cfg.amp_on_postdelay]
                      else []) ++
                      OLine.play d ::
                      ((if 4 < cfg.amp_off_predelay then
                          [OLine.wait cfg.amp_off_predelay] else []) ++
                        (if 4 < cfg.amp_off_predelay ∨
                            4 < cfg.amp_off_postdelay then
                          [OLine.mrk 11] else []) ++
                        (if 4 < cfg.amp_off_postdelay then
                          [OLine.upd cfg.amp_off_postdelay] else [])),
                    (if 4 < cfg.switch_closed_postdelay then
                      [OLine.upd cfg.switch_closed_postdelay] else []) ++
                      out', ?_, ?_⟩
                  · simp [List.append_assoc]
                  · intro k hk
                    rcases List.mem_append.1 hk with hk1 | hk2
                    · rw [mem_ite_singleton hk1]; simp
                    · exact ih1 htl0 k hk2
          · rw [if_neg hlast] at h
            cases hrec : twtGo cfg wfmNb tl true
                (if amp = false then true
                 else if switch = false ∧ 0 < cfg.switch_open_postdelay
                 then true else switch) (counter + 1) dr with
            | error e => rw [hrec] at h; exact absurd h (by simp)
            | ok out' =>
                rw [hrec] at h
                simp only [Except.ok.injEq] at h
                subst h
                have htlpos : 0 < q1asm_count_play tl := by
                  simp at hcount; omega
                obtain ⟨_, ih2⟩ := ih true _ (counter + 1) dr out' hrec
                  (by simp at hcount; omega) hmrk'
                constructor
                · intro h0; simp at h0
                · intro _
                  obtain ⟨l1, l2, hdec, h15⟩ := ih2 htlpos
                  refine ⟨(if switch = false ∧
                        0 < cfg.switch_open_postdelay then
                        [OLine.mrk 7, OLine.upd cfg.switch_open_postdelay]
                      else []) ++
                      (if amp = false then
                        [OLine.mrk 15, OLine.upd cfg.amp_on_postdelay]
                      else []) ++ OLine.play d :: l1, l2, ?_, h15⟩
                  rw [hdec]
                  simp [List.append_assoc]

lemma mrkClosed_of_decomp (l1 l2 : List OLine)
    (h15 : ∀ k ∈ l2, k ≠ OLine.mrk 15) :
    mrkClosed (l1 ++ OLine.mrk 3 :: l2) := by
  intro i hi hget
  have hlen : l1.length < (l1 ++ OLine.mrk 3 :: l2).length := by simp
  refine ⟨l1.length, hlen, ?_, Or.inr ?_⟩
  · by_contra hle
    push_neg at hle
    rw [List.get_eq_getElem, List.getElem_append_right hle] at hget
    rcases eq_or_ne (i - l1.length) 0 with h0 | hne
    · simp only [h0, List.getElem_cons_zero] at hget
      exact absurd hget (by simp)
    · rcases Nat.exists_eq_succ_of_ne_zero hne with ⟨k, hk⟩
      simp only [hk, List.getElem_cons_succ] at hget
      exact absurd hget (h15 _ (List.getElem_mem _))
  · rw [List.get_eq_getElem, List.getElem_append_right (le_refl _)]
    simp

/-- C7 counterexample: the claim quantifies over every input program with
at least one play instruction.  An input that itself ends with a
`set_mrk 15` line (passed through verbatim by the pass) yields an output
whose final amplifier-on marker is never followed by an off marker, so
the overtrigger condition fails. -/
theorem C7_counterexample :
    q1asm_insert_twt_switch_markers twtDefault
        [SLine.play 100, SLine.wait 500, SLine.mrk 15] =
      Except.ok [OLine.mrk 15, OLine.upd 250, OLine.play 100,
        OLine.wait 50, OLine.mrk 11, OLine.upd 250, OLine.mrk 3,
        OLine.upd 150, OLine.wait 50, OLine.mrk 15] ∧
    ¬ mrkClosed [OLine.mrk 15, OLine.upd 250, OLine.play 100,
        OLine.wait 50, OLine.mrk 11, OLine.upd 250, OLine.mrk 3,
        OLine.upd 150, OLine.wait 50, OLine.mrk 15] := by
  constructor
  · rfl
  · intro hcl
    obtain ⟨j, hj, hij, _⟩ := hcl 9 (by decide) rfl
    have hj10 : j < 10 := hj
    omega

/-- C7 (amended): for every input program containing at least one play
instruction and no `set_mrk` instruction of its own, whenever
protection-marker insertion succeeds, the emitted instruction sequence
never leaves the amplifier on: every occurrence of `set_mrk 15` is
followed by a later `set_mrk 11` or `set_mrk 3` before the end of the
program — the condition enforced by the overtrigger validator's final
check. -/
theorem C7_twt_markers_amp_closed (cfg : TwtConfig) (lines : List SLine)
    (out : List OLine)
    (hres : q1asm_insert_twt_switch_markers cfg lines = Except.ok out)
    (hplay : 0 < q1asm_count_play lines)
    (hmrk : ∀ l ∈ lines, isMrkLine l = false) :
    mrkClosed out := by
  unfold q1asm_insert_twt_switch_markers at hres
  split_ifs at hres with hcfg
  obtain ⟨_, h2⟩ := twtGo_closure cfg (q1asm_count_play lines) lines
    false false 0 0 out hres (by simp) hmrk
  obtain ⟨l1, l2, hdec, h15⟩ := h2 hplay
  rw [hdec]
  exact mrkClosed_of_decomp l1 l2 h15

/-- Witness for C7 (amended): a one-pulse program with a long trailing
wait, processed with the default configuration. -/
theorem C7_twt_markers_amp_closed_witness :
    mrkClosed [OLine.mrk 15, OLine.upd 250, OLine.play 100, OLine.wait 50,
      OLine.mrk 11, OLine.upd 250, OLine.mrk 3, OLine.upd 150,
      OLine.wait 50] :=
  C7_twt_markers_amp_closed twtDefault [SLine.play 100, SLine.wait 500] _
    (by rfl) (by decide) (by decide)

end QbloxEsr
